import Mathlib

/-
Verification of the phoneme-segment editing model of the rhubarb-lip-sync
web application.  The definitions below are shallow embeddings of the
TypeScript source:

  - src/app/components/Settings.tsx   (PhonemeEditor: drag, split, delete,
    merge, delete-boundary, relabel, undo/redo history, playback arbitration)
  - src/app/lib/rhubarb-api.ts        (seeding from detector cues, JSON export)
  - src/app/hooks/useAudioProcessor.ts (re-entrancy guard)
  - src/app/components/CharacterDisplay.tsx (current-phoneme lookup)

Times are modelled as rationals (the source uses JS numbers for seconds).
-/

namespace Rhubarb

/-- Viseme label set: the 9 mouth-shape values A..H and X
(src/app/lib/types.ts, MouthShape). -/
inductive MouthShape where
  | A | B | C | D | E | F | G | H | X
  deriving DecidableEq, Repr

/-- One phoneme segment: a labeled time interval
(src/app/lib/types.ts, PhonemeData). -/
structure PhonemeData where
  start : ℚ
  «end» : ℚ
  value : MouthShape
  deriving DecidableEq, Repr

/-- Placeholder segment used only for out-of-range list reads that the
source never performs (every access below is index-guarded). -/
def phDefault : PhonemeData := ⟨0, 0, MouthShape.X⟩

/-- Embedding of handleSegmentDrag (Settings.tsx lines 453-489): writes the
dragged boundaries into segment index, then pushes the left neighbor's end
down when the new start overlaps it, and the right neighbor's start up when
the new end overlaps it.  Out-of-range index: no change. -/
def handleSegmentDrag (phonemes : List PhonemeData) (index : Nat)
    (newStart newEnd : ℚ) : List PhonemeData :=
  if index < phonemes.length then
    let oldPhoneme := phonemes.getD index phDefault
    let s1 := phonemes.set index ⟨newStart, newEnd, oldPhoneme.value⟩
    let s2 :=
      if 0 < index ∧ newStart < (s1.getD (index - 1) phDefault).«end» then
        s1.set (index - 1)
          { s1.getD (index - 1) phDefault with «end» := newStart }
      else s1
    if index + 1 < s2.length ∧ (s2.getD (index + 1) phDefault).start < newEnd then
      s2.set (index + 1)
        { s2.getD (index + 1) phDefault with start := newEnd }
    else s2
  else phonemes

/-- Result of splitAtPlayhead: the new sequence, whether a history entry was
pushed, and the segment id selected afterwards (none means unchanged). -/
structure SplitResult where
  phonemes : List PhonemeData
  pushed : Bool
  newSelection : Option Nat
  deriving DecidableEq, Repr

/-- Embedding of splitAtPlayhead (Settings.tsx lines 512-535): finds the
first segment with start <= t < end; refuses when none exists or the
playhead is closer than 0.02 s to either edge; otherwise splices the two
halves in, pushes history and selects the right-hand piece. -/
def splitAtPlayhead (phonemes : List PhonemeData) (currentTime : ℚ) :
    SplitResult :=
  match phonemes.findIdx?
      (fun p => decide (p.start ≤ currentTime) && decide (currentTime < p.«end»)) with
  | none => ⟨phonemes, false, none⟩
  | some segmentIndex =>
    let segment := phonemes.getD segmentIndex phDefault
    if currentTime - segment.start < 1/50 ∨ segment.«end» - currentTime < 1/50 then
      ⟨phonemes, false, none⟩
    else
      ⟨phonemes.take segmentIndex ++
        ⟨segment.start, currentTime, segment.value⟩ ::
        ⟨currentTime, segment.«end», segment.value⟩ ::
        phonemes.drop (segmentIndex + 1),
       true, some (segmentIndex + 1)⟩

/-- Result of deleteSegment: the new sequence and whether a history entry
was pushed. -/
structure DeleteResult where
  phonemes : List PhonemeData
  pushed : Bool
  deriving DecidableEq, Repr

/-- Embedding of deleteSegment (Settings.tsx lines 538-571): rejects an
out-of-range index and a singleton sequence; otherwise removes the segment
and extends the left neighbor's end (or, when the first segment is removed,
pulls the new first segment's start back to the deleted start). -/
def deleteSegment (phonemes : List PhonemeData) (index : Nat) : DeleteResult :=
  if index < phonemes.length then
    if phonemes.length ≤ 1 then ⟨phonemes, false⟩
    else
      let deleted := phonemes.getD index phDefault
      let rest := phonemes.take index ++ phonemes.drop (index + 1)
      let adjusted :=
        if 0 < index then
          rest.set (index - 1)
            { rest.getD (index - 1) phDefault with «end» := deleted.«end» }
        else if 0 < rest.length then
          rest.set 0 { rest.getD 0 phDefault with start := deleted.start }
        else rest
      ⟨adjusted, true⟩
  else ⟨phonemes, false⟩

/-- Embedding of mergeWithNext (Settings.tsx lines 577-595): replaces
segments index and index+1 by one segment spanning both, keeping the left
segment's shape.  Requires index+1 in range, else no change. -/
def mergeWithNext (phonemes : List PhonemeData) (index : Nat) :
    List PhonemeData :=
  if index + 1 < phonemes.length then
    let current := phonemes.getD index phDefault
    let next := phonemes.getD (index + 1) phDefault
    phonemes.take index ++
      ⟨current.start, next.«end», current.value⟩ ::
      phonemes.drop (index + 2)
  else phonemes

/-- Embedding of deleteBoundary (Settings.tsx lines 598-620): merges the
segments on either side of boundary boundaryIndex, keeping the left
segment's shape. -/
def deleteBoundary (phonemes : List PhonemeData) (boundaryIndex : Nat) :
    List PhonemeData :=
  if boundaryIndex + 1 < phonemes.length then
    let left := phonemes.getD boundaryIndex phDefault
    let right := phonemes.getD (boundaryIndex + 1) phDefault
    phonemes.take boundaryIndex ++
      ⟨left.start, right.«end», left.value⟩ ::
      phonemes.drop (boundaryIndex + 2)
  else phonemes

/-- Embedding of changeSelectedShape (Settings.tsx lines 492-509): pure
label replacement at a valid index. -/
def changeSelectedShape (phonemes : List PhonemeData) (index : Nat)
    (newShape : MouthShape) : List PhonemeData :=
  if index < phonemes.length then
    phonemes.set index { phonemes.getD index phDefault with value := newShape }
  else phonemes

/-- The editor's mutation operations on the segment sequence. -/
inductive EditorOp where
  | drag (index : Nat) (newStart newEnd : ℚ)
  | split (t : ℚ)
  | delete (index : Nat)
  | merge (index : Nat)
  | boundary (index : Nat)
  | relabel (index : Nat) (shape : MouthShape)
  deriving DecidableEq, Repr

/-- Applies one editor operation to a segment sequence. -/
def applyOp (op : EditorOp) (s : List PhonemeData) : List PhonemeData :=
  match op with
  | .drag index newStart newEnd => handleSegmentDrag s index newStart newEnd
  | .split t => (splitAtPlayhead s t).phonemes
  | .delete index => (deleteSegment s index).phonemes
  | .merge index => mergeWithNext s index
  | .boundary index => deleteBoundary s index
  | .relabel index shape => changeSelectedShape s index shape

/-- The segment-sequence invariant of the spec (section 3): non-empty,
first start 0, last end equal to the duration, adjacent segments share
their boundary, every segment has positive length, and starts are strictly
ascending. -/
def validSeq (d : ℚ) (s : List PhonemeData) : Prop :=
  s ≠ [] ∧
  (s.getD 0 phDefault).start = 0 ∧
  (s.getD (s.length - 1) phDefault).«end» = d ∧
  (∀ i, i < s.length - 1 →
    (s.getD i phDefault).«end» = (s.getD (i + 1) phDefault).start) ∧
  (∀ i, i < s.length →
    (s.getD i phDefault).start < (s.getD i phDefault).«end») ∧
  (∀ i, i < s.length - 1 →
    (s.getD i phDefault).start < (s.getD (i + 1) phDefault).start)

instance (d : ℚ) (s : List PhonemeData) : Decidable (validSeq d s) := by
  unfold validSeq
  infer_instance

/-- Side conditions under which a drag cannot break the invariant: the
dragged segment keeps positive length, outer boundaries stay pinned to 0
and the duration, and each moved boundary stays inside the adjacent
segment (strictly above the neighbor's start, at most at the neighbor's
end, and symmetrically on the right). -/
def dragSafe (d : ℚ) (s : List PhonemeData) (i : Nat) (ns ne : ℚ) : Prop :=
  ns < ne ∧
  (i = 0 → ns = 0) ∧
  (0 < i → (s.getD (i - 1) phDefault).start < ns ∧
    ns ≤ (s.getD (i - 1) phDefault).«end») ∧
  (i = s.length - 1 → ne = d) ∧
  (i + 1 < s.length → (s.getD (i + 1) phDefault).start ≤ ne ∧
    ne < (s.getD (i + 1) phDefault).«end»)

/-- Side condition per operation: only drags are restricted. -/
def opSafe (d : ℚ) (s : List PhonemeData) : EditorOp → Prop
  | .drag i ns ne => dragSafe d s i ns ne
  | _ => True

instance (d : ℚ) (s : List PhonemeData) (i : Nat) (ns ne : ℚ) :
    Decidable (dragSafe d s i ns ne) := by
  unfold dragSafe
  infer_instance

instance (d : ℚ) (s : List PhonemeData) :
    (op : EditorOp) → Decidable (opSafe d s op)
  | .drag i ns ne => inferInstanceAs (Decidable (dragSafe d s i ns ne))
  | .split _ => Decidable.isTrue trivial
  | .delete _ => Decidable.isTrue trivial
  | .merge _ => Decidable.isTrue trivial
  | .boundary _ => Decidable.isTrue trivial
  | .relabel _ _ => Decidable.isTrue trivial

/-- One undo/redo history entry (Settings.tsx lines 183-186). -/
structure HistoryEntry where
  phonemes : List PhonemeData
  description : String
  deriving DecidableEq, Repr

/-- The editor's history state: the entry list and the cursor, which starts
at -1 before any commit (Settings.tsx lines 216-217). -/
structure HistoryState where
  history : List HistoryEntry
  historyIndex : Int
  deriving DecidableEq, Repr

/-- Placeholder history entry for out-of-range reads (never reached by the
guarded accesses below). -/
def entryDefault : HistoryEntry := ⟨[], ""⟩

/-- Embedding of addToHistory (Settings.tsx lines 220-235): drops the redo
tail past the cursor, appends the new entry, evicts the oldest entry past
50, and advances the cursor capping it at 49. -/
def addToHistory (st : HistoryState) (newPhonemes : List PhonemeData)
    (description : String) : HistoryState :=
  let pushed := st.history.take (st.historyIndex + 1).toNat ++
    [⟨newPhonemes, description⟩]
  let newHistory := if 50 < pushed.length then pushed.drop 1 else pushed
  ⟨newHistory, min (st.historyIndex + 1) 49⟩

/-- Embedding of undo (Settings.tsx lines 238-243): when the cursor is past
the first entry, decrements it and hands the snapshot at the new cursor to
onPhonemesChange (returned here as the second component); otherwise no-op
returning none. -/
def undo (st : HistoryState) : HistoryState × Option (List PhonemeData) :=
  if 0 < st.historyIndex then
    (⟨st.history, st.historyIndex - 1⟩,
     some ((st.history.getD (st.historyIndex - 1).toNat entryDefault).phonemes))
  else (st, none)

/-- A raw cue from the detector response (rhubarb-api.ts mouthCues entries
and the exported mouthCues objects share this shape). -/
structure MouthCue where
  start : ℚ
  «end» : ℚ
  value : MouthShape
  deriving DecidableEq, Repr

/-- Metadata block of the interchange JSON (rhubarb-api.ts lines 192-195). -/
structure ExportMetadata where
  soundFile : String
  duration : ℚ
  deriving DecidableEq, Repr

/-- The interchange JSON structure built by exportPhonemeJSON before
stringification (rhubarb-api.ts lines 191-201). -/
structure PhonemeJSON where
  metadata : ExportMetadata
  mouthCues : List MouthCue
  deriving DecidableEq, Repr

/-- Embedding of the cue-to-phoneme seeding in processViaServerAction /
processViaExternalAPI (rhubarb-api.ts lines 120-124 and 75-79): each cue is
mapped field-for-field onto a PhonemeData. -/
def seedFromCues (mouthCues : List MouthCue) : List PhonemeData :=
  mouthCues.map fun cue => ⟨cue.start, cue.«end», cue.value⟩

/-- Embedding of exportPhonemeJSON (rhubarb-api.ts lines 190-204): fixed
soundFile name, the given duration, and the phonemes mapped
field-for-field onto mouthCues in sequence order. -/
def exportPhonemeJSON (phonemes : List PhonemeData) (duration : ℚ) :
    PhonemeJSON :=
  ⟨⟨"audio.wav", duration⟩, phonemes.map fun p => ⟨p.start, p.«end», p.value⟩⟩

/-- Processing status of the audio processor hook
(src/app/lib/types.ts, ProcessingStatus). -/
inductive ProcessingStatus where
  | idle | processing | success | error
  deriving DecidableEq, Repr

/-- Successful processing result (useAudioProcessor.ts lines 9-15; the
waveform payload is external rendering data and is left out). -/
structure ProcessingResult where
  phonemes : List PhonemeData
  duration : ℚ
  audioUrl : String
  processingTime : ℚ
  deriving DecidableEq, Repr

/-- State of the useAudioProcessor hook: status, error, last good result,
and the processingRef re-entrancy flag (useAudioProcessor.ts lines 21-26). -/
structure ProcessorState where
  status : ProcessingStatus
  error : Option String
  result : Option ProcessingResult
  processing : Bool
  deriving DecidableEq, Repr

/-- Embedding of processAudio (useAudioProcessor.ts lines 31-74).  The
outcome argument stands for the awaited external detection round trip.
When the guard is set the call returns null with no state change; otherwise
the guard is taken, the result or error is recorded, and the guard is
released in the finally block. -/
def processAudio (st : ProcessorState)
    (outcome : Except String ProcessingResult) :
    Option ProcessingResult × ProcessorState :=
  if st.processing then (none, st)
  else
    match outcome with
    | .ok r =>
      (some r, ⟨ProcessingStatus.success, none, some r, false⟩)
    | .error msg =>
      (none, ⟨ProcessingStatus.error, some msg, st.result, false⟩)

/-- Which transport currently owns playback (Settings.tsx line 1634). -/
inductive ActivePlayer where
  | timeline | editor
  deriving DecidableEq, Repr

/-- Playback arbitration state of the page: the active-player token, the
overview transport's playing flag, and the shared play-head display time
(Settings.tsx line 1634 and useAudioPlayback.ts). -/
structure PlaybackUIState where
  activePlayer : Option ActivePlayer
  overviewPlaying : Bool
  currentTime : ℚ
  duration : ℚ
  deriving DecidableEq, Repr

/-- Embedding of useAudioPlayback's seek (useAudioPlayback.ts lines
113-119): clamps the time into [0, duration] and updates the displayed
time only. -/
def seek (st : PlaybackUIState) (time : ℚ) : PlaybackUIState :=
  { st with currentTime := max 0 (min time st.duration) }

/-- Embedding of handleEditorTimeUpdate (Settings.tsx lines 1638-1644):
mirrors the detail transport's time into the shared display via seek, but
only while the editor is the active player. -/
def handleEditorTimeUpdate (st : PlaybackUIState) (time : ℚ) :
    PlaybackUIState :=
  if st.activePlayer = some ActivePlayer.editor then seek st time else st

/-- Embedding of handleEditorPlayStateChange (Settings.tsx lines
1647-1660): when the editor starts playing it becomes the active player and
the overview transport is paused if it was playing; when it stops, the
active-player token is cleared if the editor held it. -/
def handleEditorPlayStateChange (st : PlaybackUIState) (isPlaying : Bool) :
    PlaybackUIState :=
  if isPlaying then
    let st1 := { st with activePlayer := some ActivePlayer.editor }
    if st1.overviewPlaying then { st1 with overviewPlaying := false } else st1
  else
    if st.activePlayer = some ActivePlayer.editor then
      { st with activePlayer := none }
    else st

/-- Embedding of the currentPhoneme lookup (CharacterDisplay.tsx lines
21-24 and the same code in MouthShapeDisplay): none for an empty list,
otherwise the first segment whose half-open interval contains the time,
falling back to the first segment of the list. -/
def currentPhoneme (phonemes : List PhonemeData) (currentTime : ℚ) :
    Option PhonemeData :=
  if phonemes.length = 0 then none
  else some ((phonemes.find?
      (fun p => decide (p.start ≤ currentTime) && decide (currentTime < p.«end»))).getD
    (phonemes.getD 0 phDefault))

/-- Embedding of the displayed shape (CharacterDisplay.tsx line 30):
the current phoneme's value, or X when there is no current phoneme. -/
def currentShape (phonemes : List PhonemeData) (currentTime : ℚ) :
    MouthShape :=
  ((currentPhoneme phonemes currentTime).map (fun p => p.value)).getD
    MouthShape.X

/-! Helper lemmas about list indexing with getD. -/

theorem getD_append_lt {α : Type} (l₁ l₂ : List α) (d : α) (k : Nat)
    (h : k < l₁.length) : (l₁ ++ l₂).getD k d = l₁.getD k d := by
  simp [List.getD_eq_getElem?_getD, List.getElem?_append_left h]

theorem getD_append_ge {α : Type} (l₁ l₂ : List α) (d : α) (k : Nat)
    (h : l₁.length ≤ k) : (l₁ ++ l₂).getD k d = l₂.getD (k - l₁.length) d := by
  simp [List.getD_eq_getElem?_getD, List.getElem?_append_right h]

theorem getD_take_lt {α : Type} (l : List α) (d : α) (i k : Nat) (h : k < i) :
    (l.take i).getD k d = l.getD k d := by
  simp [List.getD_eq_getElem?_getD, List.getElem?_take, h]

theorem getD_drop_add {α : Type} (l : List α) (d : α) (i k : Nat) :
    (l.drop i).getD k d = l.getD (i + k) d := by
  simp [List.getD_eq_getElem?_getD, List.getElem?_drop]

theorem getD_set_ne {α : Type} (l : List α) (d a : α) (i k : Nat) (h : i ≠ k) :
    (l.set i a).getD k d = l.getD k d := by
  simp [List.getD_eq_getElem?_getD, List.getElem?_set, h]

theorem getD_set_eq {α : Type} (l : List α) (d a : α) (i : Nat)
    (h : i < l.length) : (l.set i a).getD i d = a := by
  simp [List.getD_eq_getElem?_getD, List.getElem?_set, h]

theorem getD_of_lt_length {α : Type} (l : List α) (d : α) (k : Nat)
    (h : k < l.length) : l.getD k d = l[k] := by
  simp [List.getD_eq_getElem?_getD, List.getElem?_eq_getElem h]

/-- Length of a window splice. -/
theorem length_splice (s mid : List PhonemeData) (i j : Nat) (hij : i ≤ j)
    (hj : j < s.length) :
    (s.take i ++ mid ++ s.drop (j + 1)).length =
      i + mid.length + (s.length - (j + 1)) := by
  simp [List.length_append, List.length_take, List.length_drop]
  omega

/-- Reading a window splice below the window. -/
theorem getD_splice_left (s mid : List PhonemeData) (i j k : Nat)
    (hij : i ≤ j) (hj : j < s.length) (hk : k < i) :
    (s.take i ++ mid ++ s.drop (j + 1)).getD k phDefault = s.getD k phDefault := by
  rw [List.append_assoc, getD_append_lt, getD_take_lt _ _ _ _ hk]
  simp [List.length_take]
  omega

/-- Reading a window splice inside the replacement block. -/
theorem getD_splice_mid (s mid : List PhonemeData) (i j k : Nat)
    (hij : i ≤ j) (hj : j < s.length) (hk1 : i ≤ k) (hk2 : k - i < mid.length) :
    (s.take i ++ mid ++ s.drop (j + 1)).getD k phDefault =
      mid.getD (k - i) phDefault := by
  rw [List.append_assoc, getD_append_ge, getD_append_lt]
  · congr 1
    simp [List.length_take]
    omega
  · simpa [List.length_take] using by omega
  · simp [List.length_take]
    omega

/-- Reading a window splice above the window. -/
theorem getD_splice_right (s mid : List PhonemeData) (i j k : Nat)
    (hij : i ≤ j) (hj : j < s.length) (hk : i + mid.length ≤ k) :
    (s.take i ++ mid ++ s.drop (j + 1)).getD k phDefault =
      s.getD (j + 1 + (k - i - mid.length)) phDefault := by
  rw [List.append_assoc, getD_append_ge, getD_append_ge, getD_drop_add]
  · congr 1
    simp [List.length_take]
    omega
  · simp [List.length_take]
    omega
  · simp [List.length_take]
    omega

/-- Core preservation lemma: replacing the window of segments i..j by a
non-empty block that is internally contiguous, has positive-length
segments, starts where segment i started and ends where segment j ended,
preserves the sequence invariant. -/
theorem validSeq_splice (d : ℚ) (s mid : List PhonemeData) (i j : Nat)
    (hv : validSeq d s) (hij : i ≤ j) (hj : j < s.length) (hmid : mid ≠ [])
    (hchainm : ∀ k, k < mid.length - 1 →
      (mid.getD k phDefault).«end» = (mid.getD (k + 1) phDefault).start)
    (hposm : ∀ k, k < mid.length →
      (mid.getD k phDefault).start < (mid.getD k phDefault).«end»)
    (hhead : (mid.getD 0 phDefault).start = (s.getD i phDefault).start)
    (hlast : (mid.getD (mid.length - 1) phDefault).«end» =
      (s.getD j phDefault).«end») :
    validSeq d (s.take i ++ mid ++ s.drop (j + 1)) := by
  obtain ⟨hne, h0, hd, hchain, hpos, hsort⟩ := hv
  have hslen : 0 < s.length := List.length_pos.mpr hne
  have hmlen : 0 < mid.length := List.length_pos.mpr hmid
  have hrlen : (s.take i ++ mid ++ s.drop (j + 1)).length =
      i + mid.length + (s.length - (j + 1)) := length_splice s mid i j hij hj
  refine ⟨?_, ?_, ?_, ?_, ?_, ?_⟩
  · intro hcontra
    rw [hcontra] at hrlen
    simp at hrlen
    omega
  · by_cases hi : i = 0
    · rw [getD_splice_mid s mid i j 0 hij hj (by omega) (by omega)]
      simpa [hi] using hhead.trans (by rw [hi, h0])
    · rw [getD_splice_left s mid i j 0 hij hj (by omega)]
      exact h0
  · rw [hrlen]
    by_cases hlastwin : j + 1 = s.length
    · have hidx : i + mid.length + (s.length - (j + 1)) - 1 = i + (mid.length - 1) := by
        omega
      rw [hidx, getD_splice_mid s mid i j _ hij hj (by omega) (by omega)]
      have : i + (mid.length - 1) - i = mid.length - 1 := by omega
      rw [this, hlast]
      have : j = s.length - 1 := by omega
      rw [this, hd]
    · have hidx : i + mid.length + (s.length - (j + 1)) - 1 =
          i + mid.length + (s.length - (j + 1) - 1) := by omega
      rw [hidx, getD_splice_right s mid i j _ hij hj (by omega)]
      have : j + 1 + (i + mid.length + (s.length - (j + 1) - 1) - i - mid.length) =
          s.length - 1 := by omega
      rw [this]
      exact hd
  · intro k hk
    rw [hrlen] at hk
    rcases lt_or_ge (k + 1) i with hcase | hcase
    · rw [getD_splice_left s mid i j k hij hj (by omega),
        getD_splice_left s mid i j (k + 1) hij hj (by omega)]
      exact hchain k (by omega)
    · rcases lt_or_ge (k + 1 - i) mid.length with hcase2 | hcase2
      · by_cases hki : k < i
        · -- k = i - 1, crossing into the block
          have hkeq : k = i - 1 := by omega
          rw [getD_splice_left s mid i j k hij hj (by omega),
            getD_splice_mid s mid i j (k + 1) hij hj (by omega) (by omega)]
          rw [show k + 1 - i = 0 by omega, hhead, show i = k + 1 by omega]
          exact hchain k (by omega)
        · -- both inside the block
          rw [getD_splice_mid s mid i j k hij hj (by omega) (by omega),
            getD_splice_mid s mid i j (k + 1) hij hj (by omega) (by omega)]
          have : k + 1 - i = k - i + 1 := by omega
          rw [this]
          exact hchainm (k - i) (by omega)
      · rcases lt_or_ge (k - i) mid.length with hcase3 | hcase3
        · -- k at the block's last entry, crossing out of the block
          have hkeq : k - i = mid.length - 1 := by omega
          rw [getD_splice_mid s mid i j k hij hj (by omega) (by omega),
            getD_splice_right s mid i j (k + 1) hij hj (by omega)]
          rw [hkeq, hlast]
          have hjlt : j + 1 < s.length := by omega
          have : j + 1 + (k + 1 - i - mid.length) = j + 1 := by omega
          rw [this]
          exact hchain j (by omega)
        · -- both above the block
          rw [getD_splice_right s mid i j k hij hj (by omega),
            getD_splice_right s mid i j (k + 1) hij hj (by omega)]
          have h1 : j + 1 + (k + 1 - i - mid.length) =
              (j + 1 + (k - i - mid.length)) + 1 := by omega
          rw [h1]
          exact hchain _ (by omega)
  · intro k hk
    rw [hrlen] at hk
    rcases lt_or_ge k i with hcase | hcase
    · rw [getD_splice_left s mid i j k hij hj hcase]
      exact hpos k (by omega)
    · rcases lt_or_ge (k - i) mid.length with hcase2 | hcase2
      · rw [getD_splice_mid s mid i j k hij hj hcase hcase2]
        exact hposm _ hcase2
      · rw [getD_splice_right s mid i j k hij hj (by omega)]
        exact hpos _ (by omega)
  · intro k hk
    rw [hrlen] at hk
    rcases lt_or_ge (k + 1) i with hcase | hcase
    · rw [getD_splice_left s mid i j k hij hj (by omega),
        getD_splice_left s mid i j (k + 1) hij hj (by omega)]
      exact hsort k (by omega)
    · rcases lt_or_ge (k + 1 - i) mid.length with hcase2 | hcase2
      · by_cases hki : k < i
        · have hkeq : k + 1 = i := by omega
          rw [getD_splice_left s mid i j k hij hj (by omega),
            getD_splice_mid s mid i j (k + 1) hij hj (by omega) (by omega)]
          have h0' : k + 1 - i = 0 := by omega
          rw [h0', hhead]
          calc (s.getD k phDefault).start
              < (s.getD k phDefault).«end» := hpos k (by omega)
            _ = (s.getD (k + 1) phDefault).start := hchain k (by omega)
            _ = (s.getD i phDefault).start := by rw [hkeq]
        · rw [getD_splice_mid s mid i j k hij hj (by omega) (by omega),
            getD_splice_mid s mid i j (k + 1) hij hj (by omega) (by omega)]
          have : k + 1 - i = k - i + 1 := by omega
          rw [this]
          calc (mid.getD (k - i) phDefault).start
              < (mid.getD (k - i) phDefault).«end» := hposm _ (by omega)
            _ = (mid.getD (k - i + 1) phDefault).start := hchainm _ (by omega)
      · rcases lt_or_ge (k - i) mid.length with hcase3 | hcase3
        · have hkeq : k - i = mid.length - 1 := by omega
          rw [getD_splice_mid s mid i j k hij hj (by omega) (by omega),
            getD_splice_right s mid i j (k + 1) hij hj (by omega)]
          have hjlt : j + 1 < s.length := by omega
          have h1 : j + 1 + (k + 1 - i - mid.length) = j + 1 := by omega
          rw [h1]
          calc (mid.getD (k - i) phDefault).start
              < (mid.getD (k - i) phDefault).«end» := hposm _ (by omega)
            _ = (s.getD j phDefault).«end» := by rw [hkeq, hlast]
            _ = (s.getD (j + 1) phDefault).start := hchain j (by omega)
        · rw [getD_splice_right s mid i j k hij hj (by omega),
            getD_splice_right s mid i j (k + 1) hij hj (by omega)]
          have h1 : j + 1 + (k + 1 - i - mid.length) =
              (j + 1 + (k - i - mid.length)) + 1 := by omega
          rw [h1]
          exact hsort _ (by omega)

/-- Strict sortedness of starts follows from contiguity and positivity. -/
theorem sort_of_chain_pos (s : List PhonemeData)
    (hchain : ∀ i, i < s.length - 1 →
      (s.getD i phDefault).«end» = (s.getD (i + 1) phDefault).start)
    (hpos : ∀ i, i < s.length →
      (s.getD i phDefault).start < (s.getD i phDefault).«end») :
    ∀ i, i < s.length - 1 →
      (s.getD i phDefault).start < (s.getD (i + 1) phDefault).start := by
  intro i hi
  calc (s.getD i phDefault).start
      < (s.getD i phDefault).«end» := hpos i (by omega)
    _ = (s.getD (i + 1) phDefault).start := hchain i hi

/-- The two merge entry points compute the same function. -/
theorem deleteBoundary_eq (s : List PhonemeData) (i : Nat) :
    deleteBoundary s i = mergeWithNext s i := rfl

/-- Successful merge written as a window splice. -/
theorem mergeWithNext_eq_splice (s : List PhonemeData) (i : Nat)
    (h : i + 1 < s.length) :
    mergeWithNext s i =
      s.take i ++
        [⟨(s.getD i phDefault).start, (s.getD (i + 1) phDefault).«end»,
          (s.getD i phDefault).value⟩] ++
        s.drop (i + 2) := by
  simp [mergeWithNext, h]

/-- Merging preserves the sequence invariant. -/
theorem validSeq_mergeWithNext (d : ℚ) (s : List PhonemeData) (i : Nat)
    (hv : validSeq d s) : validSeq d (mergeWithNext s i) := by
  by_cases h : i + 1 < s.length
  · rw [mergeWithNext_eq_splice s i h]
    have hv' := hv
    obtain ⟨hne, h0, hd, hchain, hpos, hsort⟩ := hv'
    have happ : i + 2 = (i + 1) + 1 := rfl
    rw [happ]
    refine validSeq_splice d s _ i (i + 1) hv (by omega) h (by simp) ?_ ?_ ?_ ?_
    · intro k hk
      simp at hk
    · intro k hk
      simp only [List.length_cons, List.length_nil] at hk
      have hk0 : k = 0 := by omega
      subst hk0
      simp only [List.getD_cons_zero]
      calc (s.getD i phDefault).start
          < (s.getD i phDefault).«end» := hpos i (by omega)
        _ = (s.getD (i + 1) phDefault).start := hchain i (by omega)
        _ < (s.getD (i + 1) phDefault).«end» := hpos (i + 1) (by omega)
    · simp
    · simp
  · simp [mergeWithNext, h]
    exact hv

/-- Relabeling written as a window splice. -/
theorem changeSelectedShape_eq_splice (s : List PhonemeData) (i : Nat)
    (shape : MouthShape) (h : i < s.length) :
    changeSelectedShape s i shape =
      s.take i ++
        [{ s.getD i phDefault with value := shape }] ++
        s.drop (i + 1) := by
  simp only [changeSelectedShape, if_pos h]
  rw [List.set_eq_take_append_cons_drop]
  simp [h]

/-- Relabeling preserves the sequence invariant. -/
theorem validSeq_changeSelectedShape (d : ℚ) (s : List PhonemeData) (i : Nat)
    (shape : MouthShape) (hv : validSeq d s) :
    validSeq d (changeSelectedShape s i shape) := by
  by_cases h : i < s.length
  · rw [changeSelectedShape_eq_splice s i shape h]
    obtain ⟨hne, h0, hd, hchain, hpos, hsort⟩ := hv
    refine validSeq_splice d s _ i i ⟨hne, h0, hd, hchain, hpos, hsort⟩
      (le_refl i) h (by simp) ?_ ?_ ?_ ?_
    · intro k hk
      simp at hk
    · intro k hk
      simp only [List.length_cons, List.length_nil] at hk
      have hk0 : k = 0 := by omega
      subst hk0
      simpa using hpos i h
    · simp
    · simp
  · simp [changeSelectedShape, h]
    exact hv

/-- Splitting preserves the sequence invariant. -/
theorem validSeq_splitAtPlayhead (d : ℚ) (s : List PhonemeData) (t : ℚ)
    (hv : validSeq d s) : validSeq d ((splitAtPlayhead s t).phonemes) := by
  rcases hfind : s.findIdx?
      (fun p => decide (p.start ≤ t) && decide (t < p.«end»)) with _ | idx
  · simp only [splitAtPlayhead, hfind]
    exact hv
  · obtain ⟨hlt, hp, hmin⟩ := List.findIdx?_eq_some_iff_getElem.mp hfind
    simp only [Bool.and_eq_true, decide_eq_true_eq] at hp
    rw [← getD_of_lt_length s phDefault idx hlt] at hp
    by_cases hguard : t - (s.getD idx phDefault).start < 1/50 ∨
        (s.getD idx phDefault).«end» - t < 1/50
    · simp only [splitAtPlayhead, hfind, if_pos hguard]
      exact hv
    · simp only [splitAtPlayhead, hfind, if_neg hguard]
      push_neg at hguard
      obtain ⟨hg1, hg2⟩ := hguard
      obtain ⟨hne, h0, hd, hchain, hpos, hsort⟩ := hv
      have heq : (s.take idx ++
          ⟨(s.getD idx phDefault).start, t, (s.getD idx phDefault).value⟩ ::
          ⟨t, (s.getD idx phDefault).«end», (s.getD idx phDefault).value⟩ ::
          s.drop (idx + 1)) =
          s.take idx ++
          ([⟨(s.getD idx phDefault).start, t, (s.getD idx phDefault).value⟩,
            ⟨t, (s.getD idx phDefault).«end», (s.getD idx phDefault).value⟩] ++
          s.drop (idx + 1)) := by simp
      rw [heq, ← List.append_assoc]
      refine validSeq_splice d s _ idx idx
        ⟨hne, h0, hd, hchain, hpos, hsort⟩ (le_refl idx) hlt (by simp) ?_ ?_ ?_ ?_
      · intro k hk
        simp only [List.length_cons, List.length_nil] at hk
        have hk0 : k = 0 := by omega
        subst hk0
        simp
      · intro k hk
        simp only [List.length_cons, List.length_nil] at hk
        interval_cases k
        · simp only [List.getD_cons_zero]
          have : (0 : ℚ) < 1/50 := by norm_num
          linarith
        · simp only [List.getD_cons_succ, List.getD_cons_zero]
          have : (0 : ℚ) < 1/50 := by norm_num
          linarith
      · simp
      · simp

/-- Deleting a non-first segment written as a window splice: the left
neighbor is extended to the deleted segment's end. -/
theorem deleteSegment_eq_splice_pos (s : List PhonemeData) (i : Nat)
    (hi : i < s.length) (h1 : 1 < s.length) (h0 : 0 < i) :
    (deleteSegment s i).phonemes =
      s.take (i - 1) ++
        [⟨(s.getD (i - 1) phDefault).start, (s.getD i phDefault).«end»,
          (s.getD (i - 1) phDefault).value⟩] ++
        s.drop (i + 1) := by
  have htklen : (s.take i).length = i := by simp; omega
  simp only [deleteSegment, if_pos hi, if_neg (by omega : ¬ s.length ≤ 1),
    if_pos h0]
  have hrest : (s.take i ++ s.drop (i + 1)).getD (i - 1) phDefault =
      s.getD (i - 1) phDefault := by
    rw [getD_append_lt _ _ _ _ (by omega), getD_take_lt _ _ _ _ (by omega)]
  rw [hrest, List.set_append]
  rw [if_pos (by omega)]
  rw [List.set_eq_take_append_cons_drop, if_pos (by omega)]
  rw [List.take_take, min_eq_left (by omega : i - 1 ≤ i)]
  have hdrop : (s.take i).drop (i - 1 + 1) = [] :=
    List.drop_eq_nil_of_le (by omega)
  rw [show i - 1 + 1 = i by omega] at hdrop
  rw [show i - 1 + 1 = i by omega, hdrop]

/-- Deleting the first segment written as a window splice: the new first
segment's start is pulled back to the deleted segment's start. -/
theorem deleteSegment_eq_splice_zero (s : List PhonemeData)
    (h1 : 1 < s.length) :
    (deleteSegment s 0).phonemes =
      ⟨(s.getD 0 phDefault).start, (s.getD 1 phDefault).«end»,
        (s.getD 1 phDefault).value⟩ :: s.drop 2 := by
  simp only [deleteSegment, if_pos (by omega : 0 < s.length),
    if_neg (by omega : ¬ s.length ≤ 1), if_neg (by omega : ¬ 0 < 0)]
  have hrest0 : ((s.take 0 ++ s.drop (0 + 1)) : List PhonemeData) = s.drop 1 := by
    simp
  rw [hrest0]
  rw [if_pos (by simp; omega)]
  have hgd : (s.drop 1).getD 0 phDefault = s.getD 1 phDefault := by
    rw [getD_drop_add]
  rw [hgd]
  rw [List.drop_eq_getElem_cons (by omega : 1 < s.length)]
  rw [List.set_cons_zero]

/-- Deletion preserves the sequence invariant. -/
theorem validSeq_deleteSegment (d : ℚ) (s : List PhonemeData) (i : Nat)
    (hv : validSeq d s) : validSeq d ((deleteSegment s i).phonemes) := by
  by_cases hi : i < s.length
  · by_cases h1 : s.length ≤ 1
    · simp only [deleteSegment, if_pos hi, if_pos h1]
      exact hv
    · push_neg at h1
      have hv' := hv
      obtain ⟨hne, h0s, hd, hchain, hpos, hsort⟩ := hv'
      by_cases h0 : 0 < i
      · rw [deleteSegment_eq_splice_pos s i hi h1 h0]
        have hji : i - 1 + 1 = i := by omega
        have := validSeq_splice d s
          [⟨(s.getD (i - 1) phDefault).start, (s.getD i phDefault).«end»,
            (s.getD (i - 1) phDefault).value⟩] (i - 1) i hv (by omega) hi
          (by simp) ?_ ?_ ?_ ?_
        · exact this
        · intro k hk
          simp at hk
        · intro k hk
          simp only [List.length_cons, List.length_nil] at hk
          have hk0 : k = 0 := by omega
          subst hk0
          simp only [List.getD_cons_zero]
          calc (s.getD (i - 1) phDefault).start
              < (s.getD (i - 1) phDefault).«end» := hpos (i - 1) (by omega)
            _ = (s.getD i phDefault).start := by
                have := hchain (i - 1) (by omega)
                rwa [hji] at this
            _ < (s.getD i phDefault).«end» := hpos i hi
        · simp
        · simp
      · have hi0 : i = 0 := by omega
        subst hi0
        rw [deleteSegment_eq_splice_zero s h1]
        have heq : (⟨(s.getD 0 phDefault).start, (s.getD 1 phDefault).«end»,
            (s.getD 1 phDefault).value⟩ : PhonemeData) :: s.drop 2 =
            s.take 0 ++
            [⟨(s.getD 0 phDefault).start, (s.getD 1 phDefault).«end»,
              (s.getD 1 phDefault).value⟩] ++ s.drop (1 + 1) := by simp
        rw [heq]
        refine validSeq_splice d s _ 0 1 hv (by omega) (by omega) (by simp)
          ?_ ?_ ?_ ?_
        · intro k hk
          simp at hk
        · intro k hk
          simp only [List.length_cons, List.length_nil] at hk
          have hk0 : k = 0 := by omega
          subst hk0
          simp only [List.getD_cons_zero]
          calc (s.getD 0 phDefault).start
              < (s.getD 0 phDefault).«end» := hpos 0 (by omega)
            _ = (s.getD 1 phDefault).start := hchain 0 (by omega)
            _ < (s.getD 1 phDefault).«end» := hpos 1 (by omega)
        · simp
        · simp
  · simp only [deleteSegment, if_neg hi]
    exact hv

/-- Pointwise characterization of a drag: segment i takes the dragged
boundaries; a neighbor is rewritten only when the new boundary overlaps it
(left neighbor's end pushed down when newStart is below it, right
neighbor's start pushed up when newEnd is above it); all other segments
are untouched. -/
theorem handleSegmentDrag_spec (s : List PhonemeData) (i : Nat) (ns ne : ℚ)
    (hi : i < s.length) :
    (handleSegmentDrag s i ns ne).length = s.length ∧
    (handleSegmentDrag s i ns ne).getD i phDefault =
      ⟨ns, ne, (s.getD i phDefault).value⟩ ∧
    (0 < i → ns < (s.getD (i - 1) phDefault).«end» →
      (handleSegmentDrag s i ns ne).getD (i - 1) phDefault =
        { s.getD (i - 1) phDefault with «end» := ns }) ∧
    (0 < i → (s.getD (i - 1) phDefault).«end» ≤ ns →
      (handleSegmentDrag s i ns ne).getD (i - 1) phDefault =
        s.getD (i - 1) phDefault) ∧
    (i + 1 < s.length → (s.getD (i + 1) phDefault).start < ne →
      (handleSegmentDrag s i ns ne).getD (i + 1) phDefault =
        { s.getD (i + 1) phDefault with start := ne }) ∧
    (i + 1 < s.length → ne ≤ (s.getD (i + 1) phDefault).start →
      (handleSegmentDrag s i ns ne).getD (i + 1) phDefault =
        s.getD (i + 1) phDefault) ∧
    (∀ k, k ≠ i → ¬ (0 < i ∧ k = i - 1) → k ≠ i + 1 →
      (handleSegmentDrag s i ns ne).getD k phDefault = s.getD k phDefault) := by
  by_cases hA : 0 < i ∧ ns < (s.getD (i - 1) phDefault).«end»
  · have hA' : 0 < i ∧ ns <
        ((s.set i ⟨ns, ne, (s.getD i phDefault).value⟩).getD (i - 1)
          phDefault).«end» := by
      refine ⟨hA.1, ?_⟩
      rw [getD_set_ne _ _ _ _ _ (by omega)]
      exact hA.2
    by_cases hB : i + 1 < s.length ∧ (s.getD (i + 1) phDefault).start < ne
    · have hres : handleSegmentDrag s i ns ne =
          (((s.set i ⟨ns, ne, (s.getD i phDefault).value⟩).set (i - 1)
            { s.getD (i - 1) phDefault with «end» := ns }).set (i + 1)
            { s.getD (i + 1) phDefault with start := ne }) := by
        simp only [handleSegmentDrag, if_pos hi]
        rw [if_pos hA']
        have hB' : i + 1 <
            ((s.set i ⟨ns, ne, (s.getD i phDefault).value⟩).set (i - 1)
              { (s.set i ⟨ns, ne, (s.getD i phDefault).value⟩).getD (i - 1)
                  phDefault with «end» := ns }).length ∧
            (((s.set i ⟨ns, ne, (s.getD i phDefault).value⟩).set (i - 1)
              { (s.set i ⟨ns, ne, (s.getD i phDefault).value⟩).getD (i - 1)
                  phDefault with «end» := ns }).getD (i + 1)
              phDefault).start < ne := by
          constructor
          · simpa using hB.1
          · rw [getD_set_ne _ _ _ _ _ (by omega), getD_set_ne _ _ _ _ _ (by omega)]
            exact hB.2
        rw [if_pos hB']
        rw [getD_set_ne _ _ _ _ _ (by omega : i ≠ i - 1)]
        rw [getD_set_ne _ _ _ _ _ (by omega : i - 1 ≠ i + 1),
          getD_set_ne _ _ _ _ _ (by omega : i ≠ i + 1)]
      rw [hres]
      refine ⟨by simp, ?_, ?_, ?_, ?_, ?_, ?_⟩
      · rw [getD_set_ne _ _ _ _ _ (by omega : i + 1 ≠ i),
          getD_set_ne _ _ _ _ _ (by omega : i - 1 ≠ i),
          getD_set_eq _ _ _ _ hi]
      · intro h0 hlt
        rw [getD_set_ne _ _ _ _ _ (by omega : i + 1 ≠ i - 1),
          getD_set_eq _ _ _ _ (by simpa using by omega : i - 1 <
            (s.set i ⟨ns, ne, (s.getD i phDefault).value⟩).length)]
      · intro h0 hle
        exact absurd hA.2 (not_lt.mpr hle)
      · intro hlen hlt
        rw [getD_set_eq _ _ _ _ (by simpa using hlen)]
      · intro hlen hle
        exact absurd hB.2 (not_lt.mpr hle)
      · intro k hk1 hk2 hk3
        have hk2' : k ≠ i - 1 := fun h => hk2 ⟨hA.1, h⟩
        rw [getD_set_ne _ _ _ _ _ (by omega), getD_set_ne _ _ _ _ _ (by omega),
          getD_set_ne _ _ _ _ _ (by omega)]
    · have hres : handleSegmentDrag s i ns ne =
          ((s.set i ⟨ns, ne, (s.getD i phDefault).value⟩).set (i - 1)
            { s.getD (i - 1) phDefault with «end» := ns }) := by
        simp only [handleSegmentDrag, if_pos hi]
        rw [if_pos hA']
        have hB' : ¬ (i + 1 <
            ((s.set i ⟨ns, ne, (s.getD i phDefault).value⟩).set (i - 1)
              { (s.set i ⟨ns, ne, (s.getD i phDefault).value⟩).getD (i - 1)
                  phDefault with «end» := ns }).length ∧
            (((s.set i ⟨ns, ne, (s.getD i phDefault).value⟩).set (i - 1)
              { (s.set i ⟨ns, ne, (s.getD i phDefault).value⟩).getD (i - 1)
                  phDefault with «end» := ns }).getD (i + 1)
              phDefault).start < ne) := by
          intro hc
          refine hB ⟨by simpa using hc.1, ?_⟩
          have := hc.2
          rwa [getD_set_ne _ _ _ _ _ (by omega),
            getD_set_ne _ _ _ _ _ (by omega)] at this
        rw [if_neg hB']
        rw [getD_set_ne _ _ _ _ _ (by omega : i ≠ i - 1)]
      rw [hres]
      refine ⟨by simp, ?_, ?_, ?_, ?_, ?_, ?_⟩
      · rw [getD_set_ne _ _ _ _ _ (by omega : i - 1 ≠ i),
          getD_set_eq _ _ _ _ hi]
      · intro h0 hlt
        rw [getD_set_eq _ _ _ _ (by simpa using by omega : i - 1 <
          (s.set i ⟨ns, ne, (s.getD i phDefault).value⟩).length)]
      · intro h0 hle
        exact absurd hA.2 (not_lt.mpr hle)
      · intro hlen hlt
        exact absurd ⟨hlen, hlt⟩ hB
      · intro hlen hle
        rw [getD_set_ne _ _ _ _ _ (by omega : i - 1 ≠ i + 1),
          getD_set_ne _ _ _ _ _ (by omega : i ≠ i + 1)]
      · intro k hk1 hk2 hk3
        have hk2' : k ≠ i - 1 := fun h => hk2 ⟨hA.1, h⟩
        rw [getD_set_ne _ _ _ _ _ (by omega), getD_set_ne _ _ _ _ _ (by omega)]
  · have hA' : ¬ (0 < i ∧ ns <
        ((s.set i ⟨ns, ne, (s.getD i phDefault).value⟩).getD (i - 1)
          phDefault).«end») := by
      intro hc
      refine hA ⟨hc.1, ?_⟩
      have := hc.2
      rwa [getD_set_ne _ _ _ _ _ (by omega)] at this
    by_cases hB : i + 1 < s.length ∧ (s.getD (i + 1) phDefault).start < ne
    · have hres : handleSegmentDrag s i ns ne =
          ((s.set i ⟨ns, ne, (s.getD i phDefault).value⟩).set (i + 1)
            { s.getD (i + 1) phDefault with start := ne }) := by
        simp only [handleSegmentDrag, if_pos hi]
        rw [if_neg hA']
        have hB' : i + 1 <
            (s.set i ⟨ns, ne, (s.getD i phDefault).value⟩).length ∧
            ((s.set i ⟨ns, ne, (s.getD i phDefault).value⟩).getD (i + 1)
              phDefault).start < ne := by
          constructor
          · simpa using hB.1
          · rw [getD_set_ne _ _ _ _ _ (by omega)]
            exact hB.2
        rw [if_pos hB']
        rw [getD_set_ne _ _ _ _ _ (by omega : i ≠ i + 1)]
      rw [hres]
      refine ⟨by simp, ?_, ?_, ?_, ?_, ?_, ?_⟩
      · rw [getD_set_ne _ _ _ _ _ (by omega : i + 1 ≠ i),
          getD_set_eq _ _ _ _ hi]
      · intro h0 hlt
        exact absurd ⟨h0, hlt⟩ hA
      · intro h0 hle
        rw [getD_set_ne _ _ _ _ _ (by omega : i + 1 ≠ i - 1),
          getD_set_ne _ _ _ _ _ (by omega : i ≠ i - 1)]
      · intro hlen hlt
        rw [getD_set_eq _ _ _ _ (by simpa using hlen)]
      · intro hlen hle
        exact absurd hB.2 (not_lt.mpr hle)
      · intro k hk1 hk2 hk3
        rw [getD_set_ne _ _ _ _ _ (by omega), getD_set_ne _ _ _ _ _ (by omega)]
    · have hres : handleSegmentDrag s i ns ne =
          s.set i ⟨ns, ne, (s.getD i phDefault).value⟩ := by
        simp only [handleSegmentDrag, if_pos hi]
        rw [if_neg hA']
        have hB' : ¬ (i + 1 <
            (s.set i ⟨ns, ne, (s.getD i phDefault).value⟩).length ∧
            ((s.set i ⟨ns, ne, (s.getD i phDefault).value⟩).getD (i + 1)
              phDefault).start < ne) := by
          intro hc
          refine hB ⟨by simpa using hc.1, ?_⟩
          have := hc.2
          rwa [getD_set_ne _ _ _ _ _ (by omega)] at this
        rw [if_neg hB']
      rw [hres]
      refine ⟨by simp, ?_, ?_, ?_, ?_, ?_, ?_⟩
      · rw [getD_set_eq _ _ _ _ hi]
      · intro h0 hlt
        exact absurd ⟨h0, hlt⟩ hA
      · intro h0 hle
        rw [getD_set_ne _ _ _ _ _ (by omega : i ≠ i - 1)]
      · intro hlen hlt
        exact absurd ⟨hlen, hlt⟩ hB
      · intro hlen hle
        rw [getD_set_ne _ _ _ _ _ (by omega : i ≠ i + 1)]
      · intro k hk1 hk2 hk3
        rw [getD_set_ne _ _ _ _ _ (by omega)]

/-- A drag within its safety envelope preserves the sequence invariant. -/
theorem validSeq_handleSegmentDrag (d : ℚ) (s : List PhonemeData) (i : Nat)
    (ns ne : ℚ) (hv : validSeq d s) (hsafe : dragSafe d s i ns ne) :
    validSeq d (handleSegmentDrag s i ns ne) := by
  by_cases hi : i < s.length
  · obtain ⟨hne, h0s, hd, hchain, hpos, hsort⟩ := hv
    obtain ⟨hposd, hzero, hleft, hdur, hright⟩ := hsafe
    obtain ⟨hlen, hgi, hcascL, hnoL, hcascR, hnoR, hother⟩ :=
      handleSegmentDrag_spec s i ns ne hi
    have hslen : 0 < s.length := List.length_pos.mpr hne
    have hL : 0 < i →
        ((handleSegmentDrag s i ns ne).getD (i - 1) phDefault).start =
          (s.getD (i - 1) phDefault).start ∧
        ((handleSegmentDrag s i ns ne).getD (i - 1) phDefault).«end» = ns := by
      intro h0
      rcases lt_or_ge ns (s.getD (i - 1) phDefault).«end» with hlt | hge
      · rw [hcascL h0 hlt]
        exact ⟨rfl, rfl⟩
      · have heq : (s.getD (i - 1) phDefault).«end» = ns :=
          le_antisymm hge ((hleft h0).2)
        rw [hnoL h0 hge, heq]
        exact ⟨rfl, rfl⟩
    have hR : i + 1 < s.length →
        ((handleSegmentDrag s i ns ne).getD (i + 1) phDefault).start = ne ∧
        ((handleSegmentDrag s i ns ne).getD (i + 1) phDefault).«end» =
          (s.getD (i + 1) phDefault).«end» := by
      intro hlt
      rcases lt_or_ge (s.getD (i + 1) phDefault).start ne with hlt2 | hge2
      · rw [hcascR hlt hlt2]
        exact ⟨rfl, rfl⟩
      · have heq : (s.getD (i + 1) phDefault).start = ne :=
          le_antisymm ((hright hlt).1) hge2
        rw [hnoR hlt hge2, heq]
        exact ⟨rfl, rfl⟩
    have hchainR : ∀ k, k < (handleSegmentDrag s i ns ne).length - 1 →
        ((handleSegmentDrag s i ns ne).getD k phDefault).«end» =
          ((handleSegmentDrag s i ns ne).getD (k + 1) phDefault).start := by
      rw [hlen]
      intro k hk
      by_cases hki : k = i
      · subst hki
        rw [hgi, (hR (by omega)).1]
      · by_cases hki1 : k + 1 = i
        · have h0 : 0 < i := by omega
          have hkeq : k = i - 1 := by omega
          rw [hkeq, (hL h0).2, show i - 1 + 1 = i by omega, hgi]
        · by_cases hkip : k = i + 1
          · subst hkip
            rw [(hR (by omega)).2,
              hother (i + 1 + 1) (by omega) (by omega) (by omega)]
            exact hchain (i + 1) (by omega)
          · by_cases hkim : 0 < i ∧ k + 1 = i - 1
            · obtain ⟨h0, hk1⟩ := hkim
              rw [hother k (by omega) (by omega) (by omega), hk1, (hL h0).1,
                ← hk1]
              exact hchain k (by omega)
            · rw [hother k (by omega) (by omega) (by omega),
                hother (k + 1) (by omega) (by omega) (by omega)]
              exact hchain k (by omega)
    have hposR : ∀ k, k < (handleSegmentDrag s i ns ne).length →
        ((handleSegmentDrag s i ns ne).getD k phDefault).start <
          ((handleSegmentDrag s i ns ne).getD k phDefault).«end» := by
      rw [hlen]
      intro k hk
      by_cases hki : k = i
      · subst hki
        rw [hgi]
        exact hposd
      · by_cases hkim : 0 < i ∧ k = i - 1
        · obtain ⟨h0, hkeq⟩ := hkim
          rw [hkeq, (hL h0).1, (hL h0).2]
          exact (hleft h0).1
        · by_cases hkip : k = i + 1
          · subst hkip
            rw [(hR (by omega)).1, (hR (by omega)).2]
            exact (hright (by omega)).2
          · rw [hother k (by omega) hkim (by omega)]
            exact hpos k (by omega)
    refine ⟨?_, ?_, ?_, hchainR, hposR,
      sort_of_chain_pos _ hchainR hposR⟩
    · intro hcontra
      rw [hcontra] at hlen
      simp at hlen
      omega
    · by_cases hi0 : i = 0
      · subst hi0
        rw [hgi]
        exact hzero rfl
      · by_cases hi1 : i = 1
        · rw [show (0 : Nat) = i - 1 by omega, (hL (by omega)).1,
            show i - 1 = 0 by omega]
          exact h0s
        · rw [hother 0 (by omega) (by omega) (by omega)]
          exact h0s
    · rw [hlen]
      by_cases hlast : i = s.length - 1
      · rw [← hlast, hgi]
        exact hdur hlast
      · by_cases hlast1 : i + 1 = s.length - 1
        · rw [← hlast1, (hR (by omega)).2, hlast1]
          exact hd
        · rw [hother (s.length - 1) (by omega) (by omega) (by omega)]
          exact hd
  · simp only [handleSegmentDrag, if_neg hi]
    exact hv

/-- C6: seeding the editable phoneme list from detector cues and
immediately exporting to the interchange JSON reproduces the cues exactly:
same mouthCues list (hence same count and same start, end and value at
every index, in sequence order), under metadata with a soundFile string
and the duration. -/
theorem seed_export_roundtrip (cues : List MouthCue) (d : ℚ) :
    (exportPhonemeJSON (seedFromCues cues) d).mouthCues = cues ∧
    (exportPhonemeJSON (seedFromCues cues) d).mouthCues.length = cues.length ∧
    (exportPhonemeJSON (seedFromCues cues) d).metadata = ⟨"audio.wav", d⟩ := by
  have h : (exportPhonemeJSON (seedFromCues cues) d).mouthCues = cues := by
    simp only [exportPhonemeJSON, seedFromCues, List.map_map]
    induction cues with
    | nil => rfl
    | cons c rest ih => simpa using ih
  exact ⟨h, by rw [h], rfl⟩

/-- C7: deleteBoundary and mergeWithNext are the same operation: for every
index below length-1 both replace segments i and i+1 by one segment
spanning their union carrying the left label, and for every other index
both are no-ops. -/
theorem deleteBoundary_mergeWithNext_equiv (s : List PhonemeData) (i : Nat) :
    deleteBoundary s i = mergeWithNext s i ∧
    (i + 1 < s.length → deleteBoundary s i =
      s.take i ++
        ⟨(s.getD i phDefault).start, (s.getD (i + 1) phDefault).«end»,
          (s.getD i phDefault).value⟩ :: s.drop (i + 2)) ∧
    (¬ i + 1 < s.length → deleteBoundary s i = s) := by
  refine ⟨rfl, ?_, ?_⟩
  · intro h
    rw [deleteBoundary_eq, mergeWithNext_eq_splice s i h]
    simp
  · intro h
    simp [deleteBoundary, h]

/-- Witness for C7 at a concrete sequence: merging at boundary 0 spans both
segments with the left label, and an out-of-range boundary is a no-op. -/
theorem deleteBoundary_mergeWithNext_equiv_witness :
    deleteBoundary [⟨0, 3, MouthShape.A⟩, ⟨3, 10, MouthShape.B⟩] 0 =
      [⟨0, 10, MouthShape.A⟩] ∧
    deleteBoundary [⟨0, 3, MouthShape.A⟩, ⟨3, 10, MouthShape.B⟩] 5 =
      [⟨0, 3, MouthShape.A⟩, ⟨3, 10, MouthShape.B⟩] := by
  constructor
  · rw [(deleteBoundary_mergeWithNext_equiv
      [⟨0, 3, MouthShape.A⟩, ⟨3, 10, MouthShape.B⟩] 0).2.1 (by decide)]
    decide
  · exact (deleteBoundary_mergeWithNext_equiv
      [⟨0, 3, MouthShape.A⟩, ⟨3, 10, MouthShape.B⟩] 5).2.2 (by decide)

/-- C8: a call to processAudio while the re-entrancy guard is set returns
null and leaves the processor state (status, error, last good result)
entirely unchanged, whatever the outcome of the external round trip would
have been. -/
theorem processAudio_reentrancy_guard (st : ProcessorState)
    (outcome : Except String ProcessingResult) (h : st.processing = true) :
    processAudio st outcome = (none, st) := by
  simp [processAudio, h]

/-- Witness for C8 at a concrete in-flight state. -/
theorem processAudio_reentrancy_guard_witness :
    processAudio ⟨ProcessingStatus.processing, none, none, true⟩
      (Except.ok ⟨[⟨0, 1, MouthShape.A⟩], 1, "audio", 2⟩) =
      (none, ⟨ProcessingStatus.processing, none, none, true⟩) :=
  processAudio_reentrancy_guard _ _ rfl

/-- C9: when the detail editor reports that it started playing, it becomes
the active player and the overview transport ends up not playing (it is
paused if it was playing); mirrored time updates from the editor change
only the displayed time, never the playing flag or the ownership token. -/
theorem playback_arbitration (st : PlaybackUIState) (t : ℚ) :
    (handleEditorPlayStateChange st true).overviewPlaying = false ∧
    (handleEditorPlayStateChange st true).activePlayer =
      some ActivePlayer.editor ∧
    (handleEditorTimeUpdate st t).overviewPlaying = st.overviewPlaying ∧
    (handleEditorTimeUpdate st t).activePlayer = st.activePlayer ∧
    (handleEditorTimeUpdate st t).currentTime =
      (if st.activePlayer = some ActivePlayer.editor then
        max 0 (min t st.duration) else st.currentTime) := by
  refine ⟨?_, ?_, ?_, ?_, ?_⟩ <;>
    simp only [handleEditorPlayStateChange, handleEditorTimeUpdate, seek,
      if_true] <;>
    by_cases hpl : st.overviewPlaying <;>
    by_cases hap : st.activePlayer = some ActivePlayer.editor <;>
    simp [hpl, hap]

/-- C10: when the playback time lies in no segment (for instance at or past
the final segment's end), the current-phoneme lookup falls back to the
first segment of a non-empty list, so the first segment's label is
displayed rather than the rest shape. -/
theorem currentPhoneme_fallback_first (s : List PhonemeData) (t : ℚ)
    (hne : s ≠ [])
    (hmiss : ∀ p ∈ s, ¬ (p.start ≤ t ∧ t < p.«end»)) :
    currentPhoneme s t = some (s.getD 0 phDefault) ∧
    currentShape s t = (s.getD 0 phDefault).value := by
  have hfind : s.find?
      (fun p => decide (p.start ≤ t) && decide (t < p.«end»)) = none := by
    rw [List.find?_eq_none]
    intro p hp
    simpa using hmiss p hp
  have hlen : ¬ s.length = 0 := by
    simpa [← List.length_eq_zero] using hne
  constructor
  · simp [currentPhoneme, hfind, hlen]
  · simp [currentShape, currentPhoneme, hfind, hlen]

/-- Witness for C10: a single segment ending at 1 with the playhead at 2
displays the first segment's label A, not X. -/
theorem currentPhoneme_fallback_first_witness :
    currentPhoneme [⟨0, 1, MouthShape.A⟩] 2 = some ⟨0, 1, MouthShape.A⟩ ∧
    currentShape [⟨0, 1, MouthShape.A⟩] 2 = MouthShape.A := by
  have h := currentPhoneme_fallback_first [⟨0, 1, MouthShape.A⟩] 2
    (by decide) (by decide)
  simpa using h

/-- C4: split finds the first segment containing the playhead under the
half-open test; with no containing segment, or within 0.02 s of either
edge, it is a no-op pushing no history; otherwise it replaces that one
segment by the two halves split exactly at the playhead, both keeping the
original label, and selects the right-hand piece at index i+1. -/
theorem splitAtPlayhead_spec (s : List PhonemeData) (t : ℚ) :
    ((∀ p ∈ s, ¬ (p.start ≤ t ∧ t < p.«end»)) →
      splitAtPlayhead s t = ⟨s, false, none⟩) ∧
    (∀ i, i < s.length →
      ((s.getD i phDefault).start ≤ t ∧ t < (s.getD i phDefault).«end») →
      (∀ j, j < i →
        ¬ ((s.getD j phDefault).start ≤ t ∧ t < (s.getD j phDefault).«end»)) →
      ((t - (s.getD i phDefault).start < 1/50 ∨
          (s.getD i phDefault).«end» - t < 1/50) →
        splitAtPlayhead s t = ⟨s, false, none⟩) ∧
      (1/50 ≤ t - (s.getD i phDefault).start →
        1/50 ≤ (s.getD i phDefault).«end» - t →
        splitAtPlayhead s t =
          ⟨s.take i ++
            ⟨(s.getD i phDefault).start, t, (s.getD i phDefault).value⟩ ::
            ⟨t, (s.getD i phDefault).«end», (s.getD i phDefault).value⟩ ::
            s.drop (i + 1),
           true, some (i + 1)⟩)) := by
  constructor
  · intro hmiss
    have hfind : s.findIdx?
        (fun p => decide (p.start ≤ t) && decide (t < p.«end»)) = none := by
      rw [List.findIdx?_eq_none_iff]
      intro p hp
      simpa using hmiss p hp
    simp only [splitAtPlayhead, hfind]
  · intro i hi hin hfirst
    have hfind : s.findIdx?
        (fun p => decide (p.start ≤ t) && decide (t < p.«end»)) = some i := by
      rw [List.findIdx?_eq_some_iff_getElem]
      refine ⟨hi, ?_, ?_⟩
      · rw [← getD_of_lt_length s phDefault i hi]
        simpa using hin
      · intro j hj
        rw [← getD_of_lt_length s phDefault j (by omega)]
        simpa using hfirst j hj
    constructor
    · intro hguard
      simp only [splitAtPlayhead, hfind, if_pos hguard]
    · intro hg1 hg2
      have hguard : ¬ (t - (s.getD i phDefault).start < 1/50 ∨
          (s.getD i phDefault).«end» - t < 1/50) := by
        push_neg
        exact ⟨hg1, hg2⟩
      simp only [splitAtPlayhead, hfind, if_neg hguard]

/-- Witness for C4 at a concrete sequence: splitting inside segment 1 at
time 2 produces the two halves with the same label and selects index 2,
and splitting at an uncovered time is a no-op. -/
theorem splitAtPlayhead_spec_witness :
    splitAtPlayhead [⟨0, 1, MouthShape.X⟩, ⟨1, 3, MouthShape.B⟩] 2 =
      ⟨[⟨0, 1, MouthShape.X⟩, ⟨1, 2, MouthShape.B⟩, ⟨2, 3, MouthShape.B⟩],
        true, some 2⟩ ∧
    splitAtPlayhead [⟨0, 1, MouthShape.X⟩, ⟨1, 3, MouthShape.B⟩] 5 =
      ⟨[⟨0, 1, MouthShape.X⟩, ⟨1, 3, MouthShape.B⟩], false, none⟩ := by
  constructor
  · have h := ((splitAtPlayhead_spec
        [⟨0, 1, MouthShape.X⟩, ⟨1, 3, MouthShape.B⟩] 2).2 1
        (by norm_num) (by norm_num [List.getD])
        (by intro j hj; interval_cases j; norm_num [List.getD])).2
        (by norm_num [List.getD]) (by norm_num [List.getD])
    rw [h]
    norm_num [List.getD]
  · exact (splitAtPlayhead_spec
      [⟨0, 1, MouthShape.X⟩, ⟨1, 3, MouthShape.B⟩] 5).1
      (by intro p hp; fin_cases hp <;> norm_num)

/-- C5: deleteSegment with a valid index is a rejected no-op with no
history push on a singleton sequence; otherwise it pushes history, removes
the segment, and preserves coverage by extending the left neighbor's end
to the deleted end, or, when deleting the first segment, pulling the new
first segment's start back to the deleted start. -/
theorem deleteSegment_spec (s : List PhonemeData) (i : Nat)
    (hi : i < s.length) :
    (s.length = 1 → deleteSegment s i = ⟨s, false⟩) ∧
    (1 < s.length →
      (deleteSegment s i).pushed = true ∧
      (0 < i → (deleteSegment s i).phonemes =
        s.take (i - 1) ++
          ⟨(s.getD (i - 1) phDefault).start, (s.getD i phDefault).«end»,
            (s.getD (i - 1) phDefault).value⟩ :: s.drop (i + 1)) ∧
      (i = 0 → (deleteSegment s i).phonemes =
        ⟨(s.getD 0 phDefault).start, (s.getD 1 phDefault).«end»,
          (s.getD 1 phDefault).value⟩ :: s.drop 2)) := by
  constructor
  · intro h1
    simp only [deleteSegment, if_pos hi, if_pos (by omega : s.length ≤ 1)]
  · intro h1
    refine ⟨?_, ?_, ?_⟩
    · simp only [deleteSegment, if_pos hi, if_neg (by omega : ¬ s.length ≤ 1)]
    · intro h0
      have h := deleteSegment_eq_splice_pos s i hi h1 h0
      rw [h]
      simp
    · intro h0
      subst h0
      exact deleteSegment_eq_splice_zero s h1

/-- Witness for C5: deleting from a singleton is rejected unchanged with no
push, and deleting the first of two segments extends the survivor back to
the deleted start. -/
theorem deleteSegment_spec_witness :
    deleteSegment [⟨0, 10, MouthShape.X⟩] 0 =
      ⟨[⟨0, 10, MouthShape.X⟩], false⟩ ∧
    (deleteSegment [⟨0, 5, MouthShape.A⟩, ⟨5, 10, MouthShape.B⟩] 0).phonemes =
      [⟨0, 10, MouthShape.B⟩] ∧
    (deleteSegment [⟨0, 5, MouthShape.A⟩, ⟨5, 10, MouthShape.B⟩] 0).pushed =
      true := by
  refine ⟨?_, ?_, ?_⟩
  · exact (deleteSegment_spec [⟨0, 10, MouthShape.X⟩] 0 (by decide)).1
      (by decide)
  · rw [((deleteSegment_spec [⟨0, 5, MouthShape.A⟩, ⟨5, 10, MouthShape.B⟩] 0
      (by decide)).2 (by decide)).2.2 rfl]
    decide
  · exact ((deleteSegment_spec [⟨0, 5, MouthShape.A⟩, ⟨5, 10, MouthShape.B⟩] 0
      (by decide)).2 (by decide)).1

/-- C1 counterexample: from a valid two-segment state, dragging segment
1's start from 3 up to 4 opens a gap (segment 0 still ends at 3), so not
every editor operation preserves the sequence invariant. -/
theorem editor_invariant_cex :
    validSeq 10 [⟨0, 3, MouthShape.A⟩, ⟨3, 10, MouthShape.B⟩] ∧
    ¬ validSeq 10 (applyOp (EditorOp.drag 1 4 10)
      [⟨0, 3, MouthShape.A⟩, ⟨3, 10, MouthShape.B⟩]) :=
  ⟨by decide, by decide⟩

/-- C1 (amended): from a valid state, split, deleteSegment, mergeWithNext,
deleteBoundary and relabel preserve the sequence invariant (sorted,
contiguous, gapless, covering 0 to the duration, all segments of positive
length) unconditionally; drag-resize preserves it only within its safety
envelope — the dragged segment keeps positive length, the outer
boundaries stay at 0 and the duration, and each moved boundary stays
inside the adjoining segment so no gap opens and no neighbor inverts. -/
theorem applyOp_preserves_validSeq (d : ℚ) (s : List PhonemeData)
    (op : EditorOp) (hv : validSeq d s) (hsafe : opSafe d s op) :
    validSeq d (applyOp op s) := by
  cases op with
  | drag i ns ne => exact validSeq_handleSegmentDrag d s i ns ne hv hsafe
  | split t => exact validSeq_splitAtPlayhead d s t hv
  | delete i => exact validSeq_deleteSegment d s i hv
  | merge i => exact validSeq_mergeWithNext d s i hv
  | boundary i =>
    show validSeq d (deleteBoundary s i)
    rw [deleteBoundary_eq]
    exact validSeq_mergeWithNext d s i hv
  | relabel i shape => exact validSeq_changeSelectedShape d s i shape hv

/-- Witness for C1 (amended): a concrete valid state stays valid under a
merge and under an in-envelope drag. -/
theorem applyOp_preserves_validSeq_witness :
    validSeq 10 [⟨0, 3, MouthShape.A⟩, ⟨3, 10, MouthShape.B⟩] ∧
    validSeq 10 (applyOp (EditorOp.merge 0)
      [⟨0, 3, MouthShape.A⟩, ⟨3, 10, MouthShape.B⟩]) ∧
    dragSafe 10 [⟨0, 3, MouthShape.A⟩, ⟨3, 10, MouthShape.B⟩] 1 2 10 ∧
    validSeq 10 (applyOp (EditorOp.drag 1 2 10)
      [⟨0, 3, MouthShape.A⟩, ⟨3, 10, MouthShape.B⟩]) := by
  refine ⟨by decide, ?_, ?_, ?_⟩
  · exact applyOp_preserves_validSeq 10 _ (EditorOp.merge 0) (by decide)
      trivial
  · decide
  · exact applyOp_preserves_validSeq 10 _ (EditorOp.drag 1 2 10) (by decide)
      (by decide)

/-- C2 counterexample: with segment 0 ending at 3/10 and segment 1
starting at 3/10, resizing segment 1's start to 2/5 leaves segment 0
ending at 3/10 — the neighbor's end does not cascade to 2/5, a gap opens
instead. -/
theorem resize_cascade_cex :
    ((handleSegmentDrag [⟨0, 3/10, MouthShape.A⟩, ⟨3/10, 1, MouthShape.B⟩]
        1 (2/5) 1).getD 0 phDefault).«end» = 3/10 ∧
    ¬ ((handleSegmentDrag [⟨0, 3/10, MouthShape.A⟩, ⟨3/10, 1, MouthShape.B⟩]
        1 (2/5) 1).getD 0 phDefault).«end» = 2/5 := by
  have h := (handleSegmentDrag_spec
    [⟨0, 3/10, MouthShape.A⟩, ⟨3/10, 1, MouthShape.B⟩] 1 (2/5) 1
    (by simp)).2.2.2.1 (by norm_num) (by norm_num [List.getD])
  rw [h]
  norm_num [List.getD]

/-- C2 (amended): a drag writes the new boundaries into segment i without
any clamping, and cascades a neighbor's adjoining boundary only when the
new boundary overlaps that neighbor: the left neighbor's end is pushed
down to newStart exactly when newStart lies below it, and the right
neighbor's start is pushed up to newEnd exactly when newEnd lies above it;
a boundary moved away from its neighbor leaves the neighbor unchanged
(and hence a gap).  In particular, with the shared boundary at 0.30,
resizing segment 1's start to 0.40 leaves segment 0's end at 0.30. -/
theorem handleSegmentDrag_cascade (s : List PhonemeData) (i : Nat)
    (ns ne : ℚ) (hi : i < s.length) :
    (handleSegmentDrag s i ns ne).getD i phDefault =
      ⟨ns, ne, (s.getD i phDefault).value⟩ ∧
    (0 < i → ns < (s.getD (i - 1) phDefault).«end» →
      (handleSegmentDrag s i ns ne).getD (i - 1) phDefault =
        { s.getD (i - 1) phDefault with «end» := ns }) ∧
    (0 < i → (s.getD (i - 1) phDefault).«end» ≤ ns →
      (handleSegmentDrag s i ns ne).getD (i - 1) phDefault =
        s.getD (i - 1) phDefault) ∧
    (i + 1 < s.length → (s.getD (i + 1) phDefault).start < ne →
      (handleSegmentDrag s i ns ne).getD (i + 1) phDefault =
        { s.getD (i + 1) phDefault with start := ne }) ∧
    (i + 1 < s.length → ne ≤ (s.getD (i + 1) phDefault).start →
      (handleSegmentDrag s i ns ne).getD (i + 1) phDefault =
        s.getD (i + 1) phDefault) := by
  obtain ⟨hlen, hgi, hcascL, hnoL, hcascR, hnoR, hother⟩ :=
    handleSegmentDrag_spec s i ns ne hi
  exact ⟨hgi, hcascL, hnoL, hcascR, hnoR⟩

/-- Witness for C2 (amended) at the claim's concrete scenario (0.30 and
0.40 scaled exactly as rationals): the dragged segment takes its new
boundaries and the left neighbor is left unchanged, still ending at
3/10. -/
theorem handleSegmentDrag_cascade_witness :
    (handleSegmentDrag [⟨0, 3/10, MouthShape.A⟩, ⟨3/10, 1, MouthShape.B⟩]
      1 (2/5) 1).getD 1 phDefault = ⟨2/5, 1, MouthShape.B⟩ ∧
    (handleSegmentDrag [⟨0, 3/10, MouthShape.A⟩, ⟨3/10, 1, MouthShape.B⟩]
      1 (2/5) 1).getD 0 phDefault = ⟨0, 3/10, MouthShape.A⟩ := by
  have h := handleSegmentDrag_cascade
    [⟨0, 3/10, MouthShape.A⟩, ⟨3/10, 1, MouthShape.B⟩] 1 (2/5) 1 (by simp)
  constructor
  · rw [h.1]
    norm_num [List.getD]
  · rw [h.2.2.1 (by norm_num) (by norm_num [List.getD])]
    norm_num [List.getD]

/-- C3 counterexample: the editor's initial history state has cursor -1
and an empty history, and no snapshot is pushed at seeding; after the very
first commit the cursor sits at the first entry, so an immediate undo is a
no-op returning no snapshot to install — the pre-commit (seeded) sequence
is not restored. -/
theorem commit_undo_initial_cex :
    addToHistory ⟨[], -1⟩ [⟨0, 1, MouthShape.A⟩] "Resize segment" =
      ⟨[⟨[⟨0, 1, MouthShape.A⟩], "Resize segment"⟩], 0⟩ ∧
    (undo (addToHistory ⟨[], -1⟩ [⟨0, 1, MouthShape.A⟩]
        "Resize segment")).2 = none := by
  constructor <;> decide

/-- C3 (amended): in a history state in which at least one commit has
already occurred — cursor at a valid entry (at most 50 entries) with the
live sequence equal to the cursor snapshot — committing a mutation
snapshot and immediately undoing installs exactly the pre-commit live
sequence, and undo is a no-op exactly when the cursor sits at the first
entry.  From the editor's actual initial state (cursor -1, empty history)
this fails: the first commit's snapshot becomes the first entry and undo
cannot restore the seeded sequence. -/
theorem commit_undo_restores (st : HistoryState)
    (live newPh : List PhonemeData) (desc : String)
    (hwf1 : 0 ≤ st.historyIndex)
    (hwf2 : st.historyIndex < st.history.length)
    (hwf3 : st.history.length ≤ 50)
    (hlive : (st.history.getD st.historyIndex.toNat entryDefault).phonemes =
      live) :
    (undo (addToHistory st newPh desc)).2 = some live ∧
    ((undo st).2 = none ↔ st.historyIndex = 0) := by
  have hk : ((st.historyIndex.toNat : Int)) = st.historyIndex :=
    Int.toNat_of_nonneg hwf1
  set k := st.historyIndex.toNat with hkdef
  have hklen : k < st.history.length := by omega
  have hk1 : (st.historyIndex + 1).toNat = k + 1 := by omega
  have htake : (st.history.take (k + 1)).length = k + 1 := by
    simp [List.length_take]
    omega
  have hplen :
      (st.history.take (k + 1) ++ [(⟨newPh, desc⟩ : HistoryEntry)]).length =
        k + 2 := by
    simp [htake]
  constructor
  · by_cases hfull : k = 49
    · have hslen : st.history.length = 50 := by omega
      have hmin : min (st.historyIndex + 1) 49 = (49 : Int) := by omega
      simp only [addToHistory, undo, hk1, hplen, hmin]
      rw [if_pos (by omega : 50 < k + 2), if_pos (by omega : (0 : Int) < 49)]
      have hidx : ((49 : Int) - 1).toNat = 48 := by omega
      rw [hidx]
      have hdlen : k + 2 - 1 = k + 1 := by omega
      rw [getD_drop_add]
      rw [getD_append_lt _ _ _ _ (by omega)]
      rw [getD_take_lt _ _ _ _ (by omega)]
      have hintok : 1 + 48 = k := by omega
      rw [hintok, hlive]
    · have hmin : min (st.historyIndex + 1) 49 = st.historyIndex + 1 := by
        omega
      simp only [addToHistory, undo, hk1, hplen, hmin]
      rw [if_neg (by omega : ¬ 50 < k + 2),
        if_pos (by omega : (0 : Int) < st.historyIndex + 1)]
      have hidx : (st.historyIndex + 1 - 1).toNat = k := by omega
      rw [hidx]
      rw [getD_append_lt _ _ _ _ (by omega)]
      rw [getD_take_lt _ _ _ _ (by omega)]
      rw [hlive]
  · constructor
    · intro hnone
      by_contra hne0
      have hpos : 0 < st.historyIndex := by omega
      simp only [undo, if_pos hpos] at hnone
      exact Option.noConfusion hnone
    · intro h0
      simp [undo, h0]

/-- Witness for C3: from a one-entry history at cursor 0, a commit followed
by undo returns the seeded sequence, and undo at the first entry is a
no-op. -/
theorem commit_undo_restores_witness :
    (undo (addToHistory
        ⟨[⟨[⟨0, 1, MouthShape.X⟩], "seed"⟩], 0⟩
        [⟨0, 1, MouthShape.A⟩] "edit")).2 = some [⟨0, 1, MouthShape.X⟩] ∧
    ((undo (⟨[⟨[⟨0, 1, MouthShape.X⟩], "seed"⟩], 0⟩ : HistoryState)).2 = none ↔
      (⟨[⟨[⟨0, 1, MouthShape.X⟩], "seed"⟩], 0⟩ : HistoryState).historyIndex =
        0) :=
  commit_undo_restores ⟨[⟨[⟨0, 1, MouthShape.X⟩], "seed"⟩], 0⟩
    [⟨0, 1, MouthShape.X⟩] [⟨0, 1, MouthShape.A⟩] "edit"
    (by decide) (by decide) (by decide) (by decide)

end Rhubarb
